import Mathlib

/-!
Verification of the unified IPv4/IPv6 address and CIDR prefix type of this
repository (`src/src/IPAddr.h`): the 16-byte canonical representation, family
detection, classification predicates, byte-order-aware raw construction,
masking, prefix normalization, ordering, and text round-trip.

An address is embedded as its `in6_addr` storage: the list of the 16 bytes of
`in6.s6_addr`, each a `uint8_t` modelled as a `Nat` below 256, in network byte
order.  Operations declared in the header but defined in a translation unit
that is not part of the repository snapshot (`IPAddr.cc`) are modelled from the
spec and marked as such in their doc comments.
-/

/-- The address family enumeration `IPAddr::Family`. -/
inductive IPAddr.Family
  | IPv4
  | IPv6
deriving DecidableEq

/-- The byte order enumeration `IPAddr::ByteOrder`. -/
inductive IPAddr.ByteOrder
  | Host
  | Network
deriving DecidableEq

/-- The static constant `IPAddr::v4_mapped_prefix`: the top 96 bits (12 bytes)
of an IPv4-in-IPv6 mapped address, `::ffff:0:0/96`. -/
def v4_mapped_prefix : List Nat := [0, 0, 0, 0, 0, 0, 0, 0, 0, 0, 0xff, 0xff]

/-- The class `IPAddr`: its only state is the field `in6_addr in6`, 16 bytes in
network byte order, holding an IPv6 address or a v4-to-v6-mapped address.  The
byte array `in6.s6_addr` is modelled as a list of naturals. -/
structure IPAddr where
  s6_addr : List Nat
deriving DecidableEq

/-- Well-formedness of the embedding: `in6.s6_addr` holds exactly 16 bytes and
each is a `uint8_t` value. -/
def IPAddr.WF (a : IPAddr) : Prop :=
  a.s6_addr.length = 16 ∧ ∀ b ∈ a.s6_addr, b < 256

instance (a : IPAddr) : Decidable a.WF := by
  unfold IPAddr.WF; infer_instance

/-- Array access `in6.s6_addr[i]` (always in bounds in the C++ code). -/
def IPAddr.byte (a : IPAddr) (i : Nat) : Nat := a.s6_addr.getD i 0

/-- The default constructor `IPAddr()`: the unspecified IPv6 address, all 128
bits zeroed by `memset`. -/
def IPAddr.unspecified : IPAddr := ⟨List.replicate 16 0⟩

/-- `IPAddr::family()`: `IPv4` iff `memcmp(in6.s6_addr, v4_mapped_prefix, 12)`
is zero, i.e. iff the first 12 bytes equal the mapped-prefix constant. -/
def IPAddr.family (a : IPAddr) : IPAddr.Family :=
  if a.s6_addr.take 12 = v4_mapped_prefix then IPAddr.Family.IPv4 else IPAddr.Family.IPv6

/-- `IPAddr::IsMulticast()`: for IPv4 the embedded first octet
(`in6.s6_addr[12]`) equals 224, for IPv6 the first byte equals `0xff`. -/
def IPAddr.IsMulticast (a : IPAddr) : Bool :=
  if a.family = IPAddr.Family.IPv4 then a.byte 12 == 224 else a.byte 0 == 0xff

/-- `IPAddr::IsBroadcast()`: for IPv4 all four embedded bytes equal `0xff`,
for IPv6 always false. -/
def IPAddr.IsBroadcast (a : IPAddr) : Bool :=
  if a.family = IPAddr.Family.IPv4 then
    (a.byte 12 == 0xff) && (a.byte 13 == 0xff) && (a.byte 14 == 0xff) && (a.byte 15 == 0xff)
  else false

/-- `IPAddr::IsLoopback()`: for IPv4 the embedded first octet equals 127, for
IPv6 the first 15 bytes are zero and the last byte is 1. -/
def IPAddr.IsLoopback (a : IPAddr) : Bool :=
  if a.family = IPAddr.Family.IPv4 then a.byte 12 == 127
  else
    (a.byte 0 == 0) && (a.byte 1 == 0) && (a.byte 2 == 0) && (a.byte 3 == 0) &&
    (a.byte 4 == 0) && (a.byte 5 == 0) && (a.byte 6 == 0) && (a.byte 7 == 0) &&
    (a.byte 8 == 0) && (a.byte 9 == 0) && (a.byte 10 == 0) && (a.byte 11 == 0) &&
    (a.byte 12 == 0) && (a.byte 13 == 0) && (a.byte 14 == 0) && (a.byte 15 == 1)

/-- The address `::1`, used to state the IPv6 loopback characterization. -/
def IPAddr.loopback6 : IPAddr := ⟨[0, 0, 0, 0, 0, 0, 0, 0, 0, 0, 0, 0, 0, 0, 0, 1]⟩

/-- `memcmp` over byte sequences, as a strict less-than: the sequences agree up
to the first index where they differ, and there the left byte is smaller.  The
two argument lists always have the same length (16) at every use, matching
`memcmp(&addr1.in6, &addr2.in6, sizeof(in6_addr))`. -/
def memcmpLt : List Nat → List Nat → Bool
  | [], _ => false
  | _ :: _, [] => false
  | a :: as, b :: bs => if a < b then true else if b < a then false else memcmpLt as bs

/-- `operator<(const IPAddr&, const IPAddr&)`: lexicographic big-endian
byte-wise comparison of the full 16-byte representations. -/
def IPAddr.lt (a b : IPAddr) : Prop := memcmpLt a.s6_addr b.s6_addr = true

instance (a b : IPAddr) : Decidable (a.lt b) := by
  unfold IPAddr.lt; infer_instance

/-- `htonl` applied to each 32-bit word of a byte sequence in place, on a
little-endian host: swapping a word's value between host and network order
reverses the order of its four bytes in memory, so each 4-byte chunk of the
sequence is reversed independently. -/
def swapWords : List Nat → List Nat
  | b0 :: b1 :: b2 :: b3 :: rest => b3 :: b2 :: b1 :: b0 :: swapWords rest
  | rest => rest

/-- The raw-byte constructor `IPAddr(Family family, const uint32_t* bytes,
ByteOrder order)`: for IPv4, copy the 12-byte mapped-prefix constant followed
by the 4 input bytes, and if `order` is `Host` apply `htonl` to that one
32-bit word; for IPv6, copy the 16 input bytes, and if `order` is `Host` apply
`htonl` to each of the four 32-bit words independently. -/
def IPAddr.ofBytes : IPAddr.Family → List Nat → IPAddr.ByteOrder → IPAddr
  | IPAddr.Family.IPv4, bytes, order =>
    let w := bytes.take 4
    ⟨ v4_mapped_prefix ++ (if order = IPAddr.ByteOrder.Host then swapWords w else w)⟩
  | IPAddr.Family.IPv6, bytes, order =>
    let w := bytes.take 16
    ⟨if order = IPAddr.ByteOrder.Host then swapWords w else w⟩

/-- The class `IPPrefix`: an `IPAddr` (stored with the non-prefix bits masked
out, field `prefix` of the C++ class, called `pfx` here because `prefix` is a
Lean keyword) and the bit length of the prefix relative to the full 128-bit
IPv6 form (field `length`, a `uint8_t`). -/
structure IPPrefix where
  pfx : IPAddr
  length : Nat
deriving DecidableEq

/-- `IPPrefix::Prefix()`: the stored (masked) address. -/
def IPPrefix.Prefix (p : IPPrefix) : IPAddr := p.pfx

/-- `IPPrefix::LengthIPv6()`: the stored length, always on the 128-bit scale. -/
def IPPrefix.LengthIPv6 (p : IPPrefix) : Nat := p.length

/-- `IPPrefix::Length()`: `length - 96` for an IPv4-family stored address, the
raw `length` otherwise.  The subtraction is performed on `int` and converted
back to the `uint8_t` return type, so for `length < 96` it wraps modulo 256;
`(length + 160) % 256` is that value for every `length` below 256. -/
def IPPrefix.Length (p : IPPrefix) : Nat :=
  if p.pfx.family = IPAddr.Family.IPv4 then (p.length + 160) % 256 else p.length

/-- `IPPrefix::operator=`: the state of the left-hand side after `q = p`.
The C++ body assigns `prefix = other.Prefix()` and `length = other.Length()`,
so the stored length is set to the *family-relative* length of the source. -/
def IPPrefix.assign (p : IPPrefix) : IPPrefix := ⟨p.Prefix, p.Length⟩

/-- `operator==(const IPPrefix&, const IPPrefix&)`: pair equality of the
stored (masked) addresses and the family-relative lengths. -/
def IPPrefix.eq (p q : IPPrefix) : Prop :=
  p.Prefix = q.Prefix ∧ p.Length = q.Length

instance (p q : IPPrefix) : Decidable (IPPrefix.eq p q) := by
  unfold IPPrefix.eq; infer_instance

/-- Modelled from the spec: the body of `IPAddr::Mask` is declared in
`src/src/IPAddr.h` (line 202) but defined in a translation unit (`IPAddr.cc`)
that is not part of the repository snapshot.  Per §4.1 Masking, `keepTop k b`
keeps the top `k` bits (`k ≤ 8`) of the byte `b`: dividing and re-multiplying
by `2 ^ (8 - k)` clears the low `8 - k` bits, which is the same value as
AND-ing with the bitmask covering only the bits before the cut. -/
def keepTop (k b : Nat) : Nat := b / 2 ^ (8 - k) * 2 ^ (8 - k)

/-- Modelled from the spec (§4.1 Masking): zero all bits after the first `n`
bits of the byte sequence, counting from the most-significant bit.  Full bytes
before the boundary are kept, full bytes beyond it are zeroed outright, and
the byte straddling the boundary keeps only the bits before the cut. -/
def maskBytes : Nat → List Nat → List Nat
  | _, [] => []
  | n, b :: rest => keepTop (min n 8) b :: maskBytes (n - 8) rest

/-- Modelled from the spec: `IPAddr::Mask(top_bits_to_keep)` zeroes all bits
after the first `top_bits_to_keep` bits of the full 128-bit representation,
counting from the highest-order bit, regardless of family.  The C++ method
mutates in place; the model returns the new value. -/
def IPAddr.Mask (a : IPAddr) (top_bits_to_keep : Nat) : IPAddr :=
  ⟨maskBytes top_bits_to_keep a.s6_addr⟩

/-- Modelled from the spec: the constructor `IPPrefix(const IPAddr&, uint8_t)`
is declared in `src/src/IPAddr.h` (line 357) but defined in `IPAddr.cc`, which
is not part of the repository snapshot.  Per §4.2, the family-relative length
is converted to the 128-bit scale (adding 96 if the address is IPv4) and the
stored address is immediately masked with that 128-scale length. -/
def IPPrefix.make (addr : IPAddr) (len : Nat) : IPPrefix :=
  let l6 := if addr.family = IPAddr.Family.IPv4 then len + 96 else len
  ⟨addr.Mask l6, l6⟩

/-- A list known to hold 16 elements is a 16-element literal. -/
theorem exists_sixteen (l : List Nat) (h : l.length = 16) :
    ∃ b0 b1 b2 b3 b4 b5 b6 b7 b8 b9 b10 b11 b12 b13 b14 b15 : Nat,
      l = [b0, b1, b2, b3, b4, b5, b6, b7, b8, b9, b10, b11, b12, b13, b14, b15] := by
  rcases l with _ | ⟨b0, l⟩
  · simp at h
  rcases l with _ | ⟨b1, l⟩
  · simp at h
  rcases l with _ | ⟨b2, l⟩
  · simp at h
  rcases l with _ | ⟨b3, l⟩
  · simp at h
  rcases l with _ | ⟨b4, l⟩
  · simp at h
  rcases l with _ | ⟨b5, l⟩
  · simp at h
  rcases l with _ | ⟨b6, l⟩
  · simp at h
  rcases l with _ | ⟨b7, l⟩
  · simp at h
  rcases l with _ | ⟨b8, l⟩
  · simp at h
  rcases l with _ | ⟨b9, l⟩
  · simp at h
  rcases l with _ | ⟨b10, l⟩
  · simp at h
  rcases l with _ | ⟨b11, l⟩
  · simp at h
  rcases l with _ | ⟨b12, l⟩
  · simp at h
  rcases l with _ | ⟨b13, l⟩
  · simp at h
  rcases l with _ | ⟨b14, l⟩
  · simp at h
  rcases l with _ | ⟨b15, l⟩
  · simp at h
  rcases l with _ | ⟨b16, l⟩
  · exact ⟨b0, b1, b2, b3, b4, b5, b6, b7, b8, b9, b10, b11, b12, b13, b14, b15, rfl⟩
  · simp only [List.length_cons] at h
    omega

theorem IPAddr.family_v4_iff (a : IPAddr) :
    a.family = IPAddr.Family.IPv4 ↔ a.s6_addr.take 12 = v4_mapped_prefix := by
  unfold IPAddr.family
  split <;> simp_all

theorem IPAddr.family_v6_iff (a : IPAddr) :
    a.family = IPAddr.Family.IPv6 ↔ ¬ a.s6_addr.take 12 = v4_mapped_prefix := by
  unfold IPAddr.family
  split <;> simp_all

/-- C7: `family()` returns IPv4 exactly when the first 12 bytes of the 16-byte
representation equal the fixed mapped-prefix constant and IPv6 otherwise; the
family is derived from the bytes (the value holds nothing else), so two
addresses are equal iff all 16 bytes are equal. -/
theorem family_from_bytes_eq_from_bytes (a b : IPAddr) :
    (a.family = IPAddr.Family.IPv4 ↔ a.s6_addr.take 12 = v4_mapped_prefix) ∧
    (a.family = IPAddr.Family.IPv6 ↔ ¬ a.s6_addr.take 12 = v4_mapped_prefix) ∧
    (a = b ↔ a.s6_addr = b.s6_addr) := by
  refine ⟨a.family_v4_iff, a.family_v6_iff, ?_, ?_⟩
  · intro h; rw [h]
  · intro h; cases a; cases b; simpa using h

/-- C9: `IsMulticast()` returns true iff the address is IPv4-family with
embedded first octet exactly 224, or IPv6-family with first byte `0xff`. -/
theorem isMulticast_characterization (a : IPAddr) :
    a.IsMulticast = true ↔
      (a.family = IPAddr.Family.IPv4 ∧ a.byte 12 = 224) ∨
      (a.family = IPAddr.Family.IPv6 ∧ a.byte 0 = 0xff) := by
  unfold IPAddr.IsMulticast
  cases h : a.family <;> simp [h]

/-- C10: `IsBroadcast()` returns true iff the address is IPv4-family and its
embedded 32 bits are all ones (255.255.255.255); IPv6-family addresses are
never broadcast. -/
theorem isBroadcast_characterization (a : IPAddr) :
    (a.IsBroadcast = true ↔
      a.family = IPAddr.Family.IPv4 ∧
        a.byte 12 = 255 ∧ a.byte 13 = 255 ∧ a.byte 14 = 255 ∧ a.byte 15 = 255) ∧
    (a.family = IPAddr.Family.IPv6 → a.IsBroadcast = false) := by
  unfold IPAddr.IsBroadcast
  cases h : a.family <;> simp [h, and_assoc]

/-- C8: `IsLoopback()` returns true iff the address is IPv4-family with
embedded first octet 127 (all of 127.0.0.0/8), or IPv6-family and equal to
`::1` exactly. -/
theorem isLoopback_characterization (a : IPAddr) (h : a.WF) :
    a.IsLoopback = true ↔
      (a.family = IPAddr.Family.IPv4 ∧ a.byte 12 = 127) ∨
      (a.family = IPAddr.Family.IPv6 ∧ a = IPAddr.loopback6) := by
  obtain ⟨b0, b1, b2, b3, b4, b5, b6, b7, b8, b9, b10, b11, b12, b13, b14, b15, hl⟩ :=
    exists_sixteen a.s6_addr h.1
  obtain ⟨l⟩ := a
  simp only at hl
  subst hl
  unfold IPAddr.IsLoopback IPAddr.byte IPAddr.loopback6
  cases hf : IPAddr.family ⟨[b0, b1, b2, b3, b4, b5, b6, b7, b8, b9, b10, b11, b12, b13, b14, b15]⟩ <;>
    simp_all [IPAddr.family_v4_iff, IPAddr.family_v6_iff, v4_mapped_prefix, and_assoc]

/-- Witness for C8: `::1` is loopback (the theorem applied at `::1`, whose
well-formedness is discharged by `decide`). -/
theorem isLoopback_characterization_witness : IPAddr.loopback6.IsLoopback = true :=
  (isLoopback_characterization IPAddr.loopback6 (by decide)).mpr
    (Or.inr ⟨by decide, rfl⟩)

/-- C6: the raw-byte constructor: a 4-byte IPv4 input is stored as a mapped
address, its single 32-bit word byte-swapped iff the order flag is `Host`; a
16-byte IPv6 input is stored as-is under `Network`, and under `Host` each of
the four 32-bit words is byte-swapped independently, not the 128 bits as one
unit. -/
theorem ofBytes_characterization
    (b0 b1 b2 b3 b4 b5 b6 b7 b8 b9 b10 b11 b12 b13 b14 b15 : Nat) :
    IPAddr.ofBytes IPAddr.Family.IPv4 [b0, b1, b2, b3] IPAddr.ByteOrder.Network
      = ⟨ v4_mapped_prefix ++ [b0, b1, b2, b3]⟩ ∧
    IPAddr.ofBytes IPAddr.Family.IPv4 [b0, b1, b2, b3] IPAddr.ByteOrder.Host
      = ⟨ v4_mapped_prefix ++ [b3, b2, b1, b0]⟩ ∧
    IPAddr.ofBytes IPAddr.Family.IPv6
        [b0, b1, b2, b3, b4, b5, b6, b7, b8, b9, b10, b11, b12, b13, b14, b15]
        IPAddr.ByteOrder.Network
      = ⟨[b0, b1, b2, b3, b4, b5, b6, b7, b8, b9, b10, b11, b12, b13, b14, b15]⟩ ∧
    IPAddr.ofBytes IPAddr.Family.IPv6
        [b0, b1, b2, b3, b4, b5, b6, b7, b8, b9, b10, b11, b12, b13, b14, b15]
        IPAddr.ByteOrder.Host
      = ⟨[b3, b2, b1, b0, b7, b6, b5, b4, b11, b10, b9, b8, b15, b14, b13, b12]⟩ :=
  ⟨rfl, rfl, rfl, rfl⟩

/-- The IPv4 prefix 192.168.0.0/16: stored address `::ffff:192.168.0.0`,
already in masked form, with 128-bit-scale length 112 (96 + 16). -/
def sampleV4Sixteen : IPPrefix :=
  ⟨⟨[0, 0, 0, 0, 0, 0, 0, 0, 0, 0, 255, 255, 192, 168, 0, 0]⟩, 112⟩

/-- C1 fails on the code: `IPPrefix::operator=` assigns `length =
other.Length()`, the *family-relative* length, into the 128-bit-scale `length`
field.  Assigning the IPv4 prefix 192.168.0.0/16 (stored length 112) produces
a prefix with `LengthIPv6() = 16` instead of 112, `Length() = 176` (the
`uint8_t` wrap of 16 - 96) instead of 16, and the result compares unequal to
the source — even self-assignment corrupts the value, contradicting the
code's own comment that omitting the self-assignment check is correct. -/
theorem assign_not_value_copy :
    (IPPrefix.assign sampleV4Sixteen).LengthIPv6 = 16 ∧
    sampleV4Sixteen.LengthIPv6 = 112 ∧
    (IPPrefix.assign sampleV4Sixteen).Length = 176 ∧
    sampleV4Sixteen.Length = 16 ∧
    ¬ IPPrefix.eq (IPPrefix.assign sampleV4Sixteen) sampleV4Sixteen ∧
    IPPrefix.assign sampleV4Sixteen ≠ sampleV4Sixteen := by
  decide

theorem memcmpLt_irrefl (l : List Nat) : memcmpLt l l = false := by
  induction l with
  | nil => rfl
  | cons a as ih => simp [memcmpLt, ih]

theorem memcmpLt_asymm (l1 : List Nat) :
    ∀ l2, memcmpLt l1 l2 = true → memcmpLt l2 l1 = false := by
  induction l1 with
  | nil => intro l2 h; simp [memcmpLt] at h
  | cons a as ih =>
    intro l2 h
    cases l2 with
    | nil => simp [memcmpLt] at h
    | cons b bs =>
      simp only [memcmpLt] at h ⊢
      by_cases hab : a < b
      · simp [hab, show ¬ b < a by omega]
      · by_cases hba : b < a
        · simp [hab, hba] at h
        · simp [hab, hba] at h ⊢
          exact ih bs h

theorem memcmpLt_trans (l1 : List Nat) :
    ∀ l2 l3, memcmpLt l1 l2 = true → memcmpLt l2 l3 = true → memcmpLt l1 l3 = true := by
  induction l1 with
  | nil => intro l2 l3 h _; simp [memcmpLt] at h
  | cons a as ih =>
    intro l2 l3 h12 h23
    cases l2 with
    | nil => simp [memcmpLt] at h12
    | cons b bs =>
      cases l3 with
      | nil => simp [memcmpLt] at h23
      | cons c cs =>
        simp only [memcmpLt] at h12 h23 ⊢
        by_cases hab : a < b
        · by_cases hbc : b < c
          · simp [show a < c by omega]
          · by_cases hcb : c < b
            · simp [hbc, hcb] at h23
            · have hbceq : b = c := by omega
              subst hbceq
              simp [hab]
        · by_cases hba : b < a
          · simp [hab, hba] at h12
          · have habeq : a = b := by omega
            subst habeq
            by_cases hac : a < c
            · simp [hac]
            · by_cases hca : c < a
              · simp [hac, hca] at h23
              · have haceq : a = c := by omega
                subst haceq
                simp only [lt_irrefl, if_false] at h12 h23 ⊢
                exact ih bs cs h12 h23

theorem memcmpLt_trichotomy (l1 : List Nat) :
    ∀ l2, l1.length = l2.length →
      memcmpLt l1 l2 = true ∨ l1 = l2 ∨ memcmpLt l2 l1 = true := by
  induction l1 with
  | nil =>
    intro l2 h
    cases l2 with
    | nil => exact Or.inr (Or.inl rfl)
    | cons b bs => simp at h
  | cons a as ih =>
    intro l2 hlen
    cases l2 with
    | nil => simp at hlen
    | cons b bs =>
      rcases Nat.lt_trichotomy a b with h | h | h
      · exact Or.inl (by simp [memcmpLt, h])
      · subst h
        rcases ih bs (by simpa using hlen) with h' | h' | h'
        · exact Or.inl (by simp [memcmpLt, h'])
        · exact Or.inr (Or.inl (by rw [h']))
        · exact Or.inr (Or.inr (by simp [memcmpLt, h']))
      · exact Or.inr (Or.inr (by simp [memcmpLt, h, show ¬ a < b by omega]))

theorem IPAddr.eq_iff_bytes (a b : IPAddr) : a = b ↔ a.s6_addr = b.s6_addr := by
  constructor
  · intro h; rw [h]
  · intro h; cases a; cases b; simpa using h

/-- C4: the order on addresses (lexicographic big-endian byte-wise comparison
of the full 16-byte representations) is a total order consistent with
byte-wise equality: exactly one of `a < b`, `a = b`, `b < a` holds, and `<` is
transitive. -/
theorem addr_order_trichotomy_trans (a b c : IPAddr) (ha : a.WF) (hb : b.WF) :
    ((a.lt b ∧ a ≠ b ∧ ¬ b.lt a) ∨
     (¬ a.lt b ∧ a = b ∧ ¬ b.lt a) ∨
     (¬ a.lt b ∧ a ≠ b ∧ b.lt a)) ∧
    (a.lt b → b.lt c → a.lt c) := by
  constructor
  · have htri := memcmpLt_trichotomy a.s6_addr b.s6_addr (ha.1.trans hb.1.symm)
    unfold IPAddr.lt
    rcases htri with h | h | h
    · refine Or.inl ⟨h, ?_, ?_⟩
      · intro he
        rw [(IPAddr.eq_iff_bytes a b).mp he, memcmpLt_irrefl] at h
        exact Bool.noConfusion h
      · intro hba
        rw [memcmpLt_asymm _ _ hba] at h
        exact Bool.noConfusion h
    · refine Or.inr (Or.inl ⟨?_, (IPAddr.eq_iff_bytes a b).mpr h, ?_⟩) <;>
        · intro hlt
          rw [h, memcmpLt_irrefl] at hlt
          exact Bool.noConfusion hlt
    · refine Or.inr (Or.inr ⟨?_, ?_, h⟩)
      · intro hab
        rw [memcmpLt_asymm _ _ hab] at h
        exact Bool.noConfusion h
      · intro he
        rw [(IPAddr.eq_iff_bytes a b).mp he, memcmpLt_irrefl] at h
        exact Bool.noConfusion h
  · exact memcmpLt_trans _ _ _

/-- Witness for C4: the theorem applied at the unspecified address, `::1` and
`::2`, with well-formedness discharged by `decide`; the trichotomy gives
`:: < ::1`. -/
theorem addr_order_trichotomy_trans_witness :
    IPAddr.unspecified.lt IPAddr.loopback6 := by
  rcases addr_order_trichotomy_trans IPAddr.unspecified IPAddr.loopback6
      ⟨[0, 0, 0, 0, 0, 0, 0, 0, 0, 0, 0, 0, 0, 0, 0, 2]⟩ (by decide) (by decide) with ⟨h1, _⟩
  rcases h1 with ⟨h, _, _⟩ | ⟨_, h, _⟩ | ⟨_, _, h⟩
  · exact h
  · exact absurd h (by decide)
  · exact absurd h (by decide)

theorem keepTop_idem (k b : Nat) : keepTop k (keepTop k b) = keepTop k b := by
  unfold keepTop
  rw [Nat.mul_div_cancel _ (Nat.pow_pos (by norm_num))]

theorem maskBytes_idem (l : List Nat) : ∀ n, maskBytes n (maskBytes n l) = maskBytes n l := by
  induction l with
  | nil => intro n; rfl
  | cons b rest ih => intro n; simp [maskBytes, keepTop_idem, ih]

theorem maskBytes_keep_all (l : List Nat) : ∀ n, 8 * l.length ≤ n → maskBytes n l = l := by
  induction l with
  | nil => intro n _; rfl
  | cons b rest ih =>
    intro n hn
    simp only [List.length_cons] at hn
    have h8 : min n 8 = 8 := by omega
    simp [maskBytes, h8, keepTop, ih (n - 8) (by omega)]

theorem maskBytes_zero (l : List Nat) (hb : ∀ b ∈ l, b < 256) :
    maskBytes 0 l = List.replicate l.length 0 := by
  induction l with
  | nil => rfl
  | cons b rest ih =>
    have hb0 : b / 256 = 0 :=
      Nat.div_eq_of_lt (by have h := hb b (List.mem_cons_self b rest); omega)
    simp [maskBytes, keepTop, hb0,
      ih (fun x hx => hb x (List.mem_cons_of_mem b hx)), List.replicate_succ]

/-- C2: masking is idempotent for every valid bit count, keeping all 128 bits
is the identity, and keeping 0 bits yields the all-zero (unspecified) address:
all 128 bits are zeroed, including the mapped-prefix marker, so the masked
value's apparent family is IPv6 whatever the input's family was. -/
theorem mask_idempotent_and_bounds (a : IPAddr) (n : Nat) (ha : a.WF) (hn : n ≤ 128) :
    (a.Mask n).Mask n = a.Mask n ∧
    a.Mask 128 = a ∧
    a.Mask 0 = IPAddr.unspecified ∧
    (a.Mask 0).family = IPAddr.Family.IPv6 := by
  have h0 : a.Mask 0 = IPAddr.unspecified := by
    unfold IPAddr.Mask IPAddr.unspecified
    rw [maskBytes_zero _ ha.2, ha.1]
  refine ⟨?_, ?_, h0, ?_⟩
  · unfold IPAddr.Mask
    simp [maskBytes_idem]
  · unfold IPAddr.Mask
    have hl := ha.1
    rw [maskBytes_keep_all _ _ (by omega)]
  · rw [h0]
    decide

/-- Witness for C2: the theorem applied to the mapped address 192.168.1.2 with
`n = 112` (an IPv4 `/16`), all hypotheses discharged by `decide`. -/
theorem mask_idempotent_and_bounds_witness :
    ((⟨[0, 0, 0, 0, 0, 0, 0, 0, 0, 0, 255, 255, 192, 168, 1, 2]⟩ : IPAddr).Mask 112).Mask 112
      = (⟨[0, 0, 0, 0, 0, 0, 0, 0, 0, 0, 255, 255, 192, 168, 1, 2]⟩ : IPAddr).Mask 112 :=
  (mask_idempotent_and_bounds ⟨[0, 0, 0, 0, 0, 0, 0, 0, 0, 0, 255, 255, 192, 168, 1, 2]⟩ 112
    (by decide) (by decide)).1

/-- Bit `j` (big-endian, bit 0 the most significant bit of the first byte) of
a byte sequence. -/
def bitAt (l : List Nat) (j : Nat) : Nat := l.getD (j / 8) 0 / 2 ^ (7 - j % 8) % 2

/-- Bit `j` of the 128-bit representation, big-endian. -/
def IPAddr.bit (a : IPAddr) (j : Nat) : Nat := bitAt a.s6_addr j

theorem bitAt_head (b : Nat) (t : List Nat) (j : Nat) (hj : j < 8) :
    bitAt (b :: t) j = b / 2 ^ (7 - j) % 2 := by
  unfold bitAt
  rw [Nat.div_eq_of_lt hj, Nat.mod_eq_of_lt hj]
  rfl

theorem bitAt_cons (b : Nat) (t : List Nat) (j : Nat) :
    bitAt (b :: t) (j + 8) = bitAt t j := by
  unfold bitAt
  rw [show (j + 8) / 8 = j / 8 + 1 by omega, show (j + 8) % 8 = j % 8 by omega]
  rfl

theorem keepTop_eq_of_bits (k b1 b2 : Nat) (hk : k ≤ 8) (h1 : b1 < 256) (h2 : b2 < 256)
    (h : ∀ j, j < k → b1 / 2 ^ (7 - j) % 2 = b2 / 2 ^ (7 - j) % 2) :
    keepTop k b1 = keepTop k b2 := by
  unfold keepTop
  suffices hd : b1 / 2 ^ (8 - k) = b2 / 2 ^ (8 - k) by rw [hd]
  apply Nat.eq_of_testBit_eq
  intro t
  rw [← Nat.shiftRight_eq_div_pow, ← Nat.shiftRight_eq_div_pow,
    Nat.testBit_shiftRight, Nat.testBit_shiftRight]
  by_cases ht : t < k
  · have hj := h (k - 1 - t) (by omega)
    rw [show 7 - (k - 1 - t) = 8 - k + t by omega] at hj
    rw [Nat.testBit_to_div_mod, Nat.testBit_to_div_mod, hj]
  · have hb1 : b1 < 2 ^ (8 - k + t) :=
      lt_of_lt_of_le (by omega : b1 < 2 ^ 8) (Nat.pow_le_pow_right (by norm_num) (by omega))
    have hb2 : b2 < 2 ^ (8 - k + t) :=
      lt_of_lt_of_le (by omega : b2 < 2 ^ 8) (Nat.pow_le_pow_right (by norm_num) (by omega))
    rw [Nat.testBit_eq_false_of_lt hb1, Nat.testBit_eq_false_of_lt hb2]

theorem maskBytes_congr (l1 : List Nat) :
    ∀ (l2 : List Nat) (n : Nat), l1.length = l2.length →
      (∀ b ∈ l1, b < 256) → (∀ b ∈ l2, b < 256) →
      (∀ j, j < n → bitAt l1 j = bitAt l2 j) →
      maskBytes n l1 = maskBytes n l2 := by
  induction l1 with
  | nil =>
    intro l2 n hlen _ _ _
    cases l2 with
    | nil => rfl
    | cons b2 t2 => simp at hlen
  | cons b1 t1 ih =>
    intro l2 n hlen hb1 hb2 hbit
    cases l2 with
    | nil => simp at hlen
    | cons b2 t2 =>
      simp only [maskBytes]
      congr 1
      · apply keepTop_eq_of_bits _ _ _ (by omega)
          (hb1 b1 (List.mem_cons_self b1 t1)) (hb2 b2 (List.mem_cons_self b2 t2))
        intro j hj
        have hb := hbit j (by omega)
        rwa [bitAt_head b1 t1 j (by omega), bitAt_head b2 t2 j (by omega)] at hb
      · apply ih t2 (n - 8) (by simpa using hlen)
          (fun x hx => hb1 x (List.mem_cons_of_mem b1 hx))
          (fun x hx => hb2 x (List.mem_cons_of_mem b2 hx))
        intro j hj
        have hb := hbit (j + 8) (by omega)
        rwa [bitAt_cons, bitAt_cons] at hb

/-- C3: a prefix stores its address already masked to its length, so
constructing prefixes from two same-family addresses that agree on every bit
before the (128-bit-scale) length — i.e. differ only in bits beyond the
prefix — yields equal values, equal also under `operator==`, which is pair
equality of the masked address and the family-relative length. -/
theorem make_normalizes (a1 a2 : IPAddr) (len : Nat) (h1 : a1.WF) (h2 : a2.WF)
    (hf : a1.family = a2.family)
    (hlen : (if a1.family = IPAddr.Family.IPv4 then len + 96 else len) ≤ 128)
    (hbits : ∀ j, j < (if a1.family = IPAddr.Family.IPv4 then len + 96 else len) →
      a1.bit j = a2.bit j) :
    IPPrefix.make a1 len = IPPrefix.make a2 len ∧
    IPPrefix.eq (IPPrefix.make a1 len) (IPPrefix.make a2 len) := by
  have hmask : a1.Mask (if a1.family = IPAddr.Family.IPv4 then len + 96 else len)
      = a2.Mask (if a1.family = IPAddr.Family.IPv4 then len + 96 else len) := by
    unfold IPAddr.Mask
    exact congrArg IPAddr.mk
      (maskBytes_congr a1.s6_addr a2.s6_addr _ (h1.1.trans h2.1.symm) h1.2 h2.2 hbits)
  have heq : IPPrefix.make a1 len = IPPrefix.make a2 len := by
    unfold IPPrefix.make
    simp only [← hf]
    rw [hmask]
  exact ⟨heq, heq ▸ ⟨rfl, rfl⟩⟩

/-- Witness for C3: the mapped addresses 10.0.0.0 and 10.255.255.255 agree on
the first 8 family-relative bits (104 mapped bits), so their `/8` prefixes are
equal — the spec's own scenario `PrefixValue("10.0.0.0", 8) ==
PrefixValue("10.255.255.255", 8)`. -/
theorem make_normalizes_witness :
    IPPrefix.make ⟨[0, 0, 0, 0, 0, 0, 0, 0, 0, 0, 255, 255, 10, 0, 0, 0]⟩ 8
      = IPPrefix.make ⟨[0, 0, 0, 0, 0, 0, 0, 0, 0, 0, 255, 255, 10, 255, 255, 255]⟩ 8 :=
  (make_normalizes ⟨[0, 0, 0, 0, 0, 0, 0, 0, 0, 0, 255, 255, 10, 0, 0, 0]⟩
    ⟨[0, 0, 0, 0, 0, 0, 0, 0, 0, 0, 255, 255, 10, 255, 255, 255]⟩ 8
    (by decide) (by decide) (by decide) (by decide) (by decide)).1

/-- Modelled from the spec (§4.3): the character for the digit `d` (`d < 16`),
decimal digits `0`-`9` and lowercase hex letters `a`-`f` (code points 48+d and
87+d). -/
def toDigitChar (d : Nat) : Char := if d < 10 then Char.ofNat (48 + d) else Char.ofNat (87 + d)

/-- Modelled from the spec (§4.3): the value of a decimal digit character, or
`none` for any other character. -/
def decVal (c : Char) : Option Nat :=
  if 48 ≤ c.toNat ∧ c.toNat ≤ 57 then some (c.toNat - 48) else none

/-- Modelled from the spec (§4.3): the value of a hexadecimal digit character
(either case), or `none` for any other character. -/
def hexVal (c : Char) : Option Nat :=
  if 48 ≤ c.toNat ∧ c.toNat ≤ 57 then some (c.toNat - 48)
  else if 97 ≤ c.toNat ∧ c.toNat ≤ 102 then some (c.toNat - 87)
  else if 65 ≤ c.toNat ∧ c.toNat ≤ 70 then some (c.toNat - 55)
  else none

/-- Modelled from the spec (§4.1 Text conversion): the base-`b` rendering of
`n`, most significant digit first, no leading zeros (`"0"` for zero). -/
def natRepr (b n : Nat) : List Char :=
  if n = 0 then [toDigitChar 0] else ((Nat.digits b n).map toDigitChar).reverse

/-- Reads every character of a token as a digit under `dv`; `none` as soon as
one character is not a digit. -/
def readDigits (dv : Char → Option Nat) : List Char → Option (List Nat)
  | [] => some []
  | c :: cs =>
    match dv c, readDigits dv cs with
    | some d, some ds => some (d :: ds)
    | _, _ => none

/-- Modelled from the spec (§4.3): the numeric value of a nonempty all-digit
token, most significant digit first; `none` on an empty token or a non-digit
character. -/
def parseNum (dv : Char → Option Nat) (b : Nat) (cs : List Char) : Option Nat :=
  if cs.isEmpty then none
  else (readDigits dv cs).map (fun ds => ds.foldl (fun a d => a * b + d) 0)

theorem hexVal_toDigitChar (d : Nat) (h : d < 16) : hexVal (toDigitChar d) = some d := by
  interval_cases d <;> decide

theorem decVal_toDigitChar (d : Nat) (h : d < 10) : decVal (toDigitChar d) = some d := by
  interval_cases d <;> decide

theorem toDigitChar_ne_dot_colon (d : Nat) (h : d < 16) :
    toDigitChar d ≠ '.' ∧ toDigitChar d ≠ ':' := by
  interval_cases d <;> exact ⟨by decide, by decide⟩

theorem readDigits_map (dv : Char → Option Nat) (L : List Nat)
    (h : ∀ d ∈ L, dv (toDigitChar d) = some d) :
    readDigits dv (L.map toDigitChar) = some L := by
  induction L with
  | nil => rfl
  | cons d ds ih =>
    simp only [List.map_cons, readDigits, h d (List.mem_cons_self d ds),
      ih (fun x hx => h x (List.mem_cons_of_mem d hx))]

theorem foldl_reverse_digits (b : Nat) (L : List Nat) :
    ∀ a : Nat, L.reverse.foldl (fun x d => x * b + d) a = a * b ^ L.length + Nat.ofDigits b L := by
  induction L with
  | nil => intro a; simp [Nat.ofDigits]
  | cons x t ih =>
    intro a
    simp only [List.reverse_cons, List.foldl_append, List.foldl_cons, List.foldl_nil, ih a,
      Nat.ofDigits_cons, List.length_cons]
    ring

theorem parseNum_natRepr (dv : Char → Option Nat) (b n : Nat) (hb : 2 ≤ b)
    (hdv : ∀ d, d < b → dv (toDigitChar d) = some d) :
    parseNum dv b (natRepr b n) = some n := by
  by_cases hn : n = 0
  · subst hn
    unfold natRepr parseNum
    simp only [if_pos rfl]
    have h0 : dv (toDigitChar 0) = some 0 := hdv 0 (by omega)
    simp [readDigits, h0]
  · unfold natRepr parseNum
    rw [if_neg hn]
    have hdigs : ∀ d ∈ Nat.digits b n, dv (toDigitChar d) = some d := fun d hd =>
      hdv d (Nat.digits_lt_base (by omega) hd)
    have hne : Nat.digits b n ≠ [] := Nat.digits_ne_nil_iff_ne_zero.mpr hn
    have hemp : ¬ ((((Nat.digits b n).map toDigitChar).reverse).isEmpty = true) := by
      simp [List.isEmpty_iff, hne]
    rw [if_neg hemp]
    rw [← List.map_reverse, readDigits_map dv _ (fun d hd => hdigs d (List.mem_reverse.mp hd))]
    simp only [Option.map_some']
    rw [foldl_reverse_digits b _ 0]
    simp [Nat.ofDigits_digits]

theorem natRepr_ne_nil (b n : Nat) : natRepr b n ≠ [] := by
  unfold natRepr
  split
  · simp
  · simp only [ne_eq, List.reverse_eq_nil_iff, List.map_eq_nil]
    exact Nat.digits_ne_nil_iff_ne_zero.mpr (by assumption)

theorem natRepr_chars (b n : Nat) (hb2 : 2 ≤ b) (hb16 : b ≤ 16) :
    ∀ c ∈ natRepr b n, ∃ d, d < 16 ∧ c = toDigitChar d := by
  intro c hc
  unfold natRepr at hc
  split at hc
  · simp only [List.mem_singleton] at hc
    exact ⟨0, by omega, hc⟩
  · rw [List.mem_reverse] at hc
    obtain ⟨d, hd, hdc⟩ := List.mem_map.mp hc
    exact ⟨d, by have := Nat.digits_lt_base (by omega) hd; omega, hdc.symm⟩

theorem dot_not_mem_natRepr (b n : Nat) (hb2 : 2 ≤ b) (hb16 : b ≤ 16) :
    '.' ∉ natRepr b n := by
  intro hc
  obtain ⟨d, hd, hdc⟩ := natRepr_chars b n hb2 hb16 _ hc
  exact (toDigitChar_ne_dot_colon d hd).1 hdc.symm

theorem colon_not_mem_natRepr (b n : Nat) (hb2 : 2 ≤ b) (hb16 : b ≤ 16) :
    ':' ∉ natRepr b n := by
  intro hc
  obtain ⟨d, hd, hdc⟩ := natRepr_chars b n hb2 hb16 _ hc
  exact (toDigitChar_ne_dot_colon d hd).2 hdc.symm

/-- Joins tokens with a single separator character between consecutive
tokens. -/
def joinSep (c : Char) : List (List Char) → List Char
  | [] => []
  | [p] => p
  | p :: ps => p ++ c :: joinSep c ps

/-- Splits a character sequence at every occurrence of the separator `c`;
always returns one more token than there are separators. -/
def splitOnChar (c : Char) : List Char → List (List Char)
  | [] => [[]]
  | x :: xs =>
    if x = c then [] :: splitOnChar c xs
    else
      match splitOnChar c xs with
      | [] => [[x]]
      | p :: ps => (x :: p) :: ps

theorem splitOnChar_ne_nil (c : Char) (l : List Char) : splitOnChar c l ≠ [] := by
  induction l with
  | nil => simp [splitOnChar]
  | cons x xs ih =>
    simp only [splitOnChar]
    split
    · simp
    · cases h : splitOnChar c xs with
      | nil => simp
      | cons p ps => simp

theorem splitOnChar_no (c : Char) (l : List Char) (h : c ∉ l) : splitOnChar c l = [l] := by
  induction l with
  | nil => rfl
  | cons x xs ih =>
    have hx : ¬ x = c := fun he => h (by rw [he]; exact List.mem_cons_self c xs)
    have hxs : c ∉ xs := fun hm => h (List.mem_cons_of_mem x hm)
    simp only [splitOnChar, if_neg hx, ih hxs]

theorem splitOnChar_append (c : Char) (p r : List Char) (hp : c ∉ p) :
    splitOnChar c (p ++ c :: r) = p :: splitOnChar c r := by
  induction p with
  | nil => simp [splitOnChar]
  | cons x p' ih =>
    have hx : ¬ x = c := fun he => hp (by rw [he]; exact List.mem_cons_self c p')
    have hp' : c ∉ p' := fun hm => hp (List.mem_cons_of_mem x hm)
    simp only [List.cons_append, splitOnChar, if_neg hx, List.append_eq, ih hp']

theorem splitOnChar_joinSep (c : Char) (parts : List (List Char))
    (h : ∀ p ∈ parts, c ∉ p) (hne : parts ≠ []) :
    splitOnChar c (joinSep c parts) = parts := by
  induction parts with
  | nil => exact absurd rfl hne
  | cons p ps ih =>
    cases ps with
    | nil => exact splitOnChar_no c p (h p (List.mem_cons_self p []))
    | cons p2 rest =>
      have : joinSep c (p :: p2 :: rest) = p ++ c :: joinSep c (p2 :: rest) := rfl
      rw [this, splitOnChar_append c p _ (h p (List.mem_cons_self p _)),
        ih (fun q hq => h q (List.mem_cons_of_mem p hq)) (by simp)]

theorem mem_joinSep (c : Char) (parts : List (List Char)) (x : Char) (hx : x ∈ joinSep c parts) :
    x = c ∨ ∃ p ∈ parts, x ∈ p := by
  induction parts with
  | nil => simp [joinSep] at hx
  | cons p ps ih =>
    cases ps with
    | nil =>
      simp only [joinSep] at hx
      exact Or.inr ⟨p, List.mem_cons_self p [], hx⟩
    | cons p2 rest =>
      simp only [joinSep, List.mem_append, List.mem_cons] at hx
      rcases hx with hx | hx | hx
      · exact Or.inr ⟨p, List.mem_cons_self p _, hx⟩
      · exact Or.inl hx
      · rcases ih hx with he | ⟨q, hq, hxq⟩
        · exact Or.inl he
        · exact Or.inr ⟨q, List.mem_cons_of_mem p hq, hxq⟩

theorem sep_mem_joinSep (c : Char) (p p2 : List Char) (rest : List (List Char)) :
    c ∈ joinSep c (p :: p2 :: rest) := by
  simp [joinSep]

/-- The eight 16-bit groups of a 16-byte sequence, big-endian within each
group. -/
def groupsOfBytes : List Nat → List Nat
  | b0 :: b1 :: rest => (b0 * 256 + b1) :: groupsOfBytes rest
  | _ => []

/-- The bytes of a group sequence, two big-endian bytes per group. -/
def bytesOfGroups : List Nat → List Nat
  | [] => []
  | g :: gs => g / 256 :: g % 256 :: bytesOfGroups gs

theorem bytesOfGroups_groupsOfBytes :
    ∀ l : List Nat, (∀ b ∈ l, b < 256) → l.length % 2 = 0 →
      bytesOfGroups (groupsOfBytes l) = l
  | [], _, _ => rfl
  | [x], _, he => by simp at he
  | b0 :: b1 :: rest, hb, he => by
    have ih := bytesOfGroups_groupsOfBytes rest
      (fun x hx => hb x (List.mem_cons_of_mem b0 (List.mem_cons_of_mem b1 hx)))
      (by simp only [List.length_cons] at he; omega)
    have h1 := hb b1 (List.mem_cons_of_mem b0 (List.mem_cons_self b1 rest))
    simp only [groupsOfBytes, bytesOfGroups, ih, List.cons.injEq, and_true]
    omega

theorem groupsOfBytes_lt :
    ∀ l : List Nat, (∀ b ∈ l, b < 256) → ∀ g ∈ groupsOfBytes l, g < 65536
  | [], _, g, hg => by simp [groupsOfBytes] at hg
  | [x], _, g, hg => by simp [groupsOfBytes] at hg
  | b0 :: b1 :: rest, hb, g, hg => by
    simp only [groupsOfBytes, List.mem_cons] at hg
    rcases hg with hg | hg
    · have h0 := hb b0 (List.mem_cons_self b0 _)
      have h1 := hb b1 (List.mem_cons_of_mem b0 (List.mem_cons_self b1 rest))
      omega
    · exact groupsOfBytes_lt rest
        (fun x hx => hb x (List.mem_cons_of_mem b0 (List.mem_cons_of_mem b1 hx))) g hg

theorem groupsOfBytes_length :
    ∀ l : List Nat, (groupsOfBytes l).length = l.length / 2
  | [] => rfl
  | [x] => by simp [groupsOfBytes]
  | b0 :: b1 :: rest => by
    simp only [groupsOfBytes, List.length_cons, groupsOfBytes_length rest]
    omega

/-- The number of consecutive zero groups at the head of the sequence. -/
def runLen : List Nat → Nat
  | 0 :: rest => 1 + runLen rest
  | _ => 0

/-- Modelled from the spec (§4.1 Text conversion): the leftmost longest run of
two or more consecutive all-zero groups, as `(start, length)` with `start`
counted from `i`; `none` when no run of length at least 2 exists.  A later run
replaces the current one only when strictly longer, so ties go to the leftmost
run. -/
def bestRunAux : Nat → List Nat → Option (Nat × Nat)
  | _, [] => none
  | i, g :: rest =>
    if 2 ≤ runLen (g :: rest) then
      match bestRunAux (i + 1) rest with
      | none => some (i, runLen (g :: rest))
      | some (j, l) =>
        if runLen (g :: rest) < l then some (j, l) else some (i, runLen (g :: rest))
    else bestRunAux (i + 1) rest

def bestRun (gs : List Nat) : Option (Nat × Nat) := bestRunAux 0 gs

theorem runLen_le_length : ∀ l : List Nat, runLen l ≤ l.length := by
  intro l
  induction l with
  | nil => simp [runLen]
  | cons g rest ih =>
    cases g with
    | zero => simp only [runLen, List.length_cons]; omega
    | succ k => simp [runLen]

theorem take_runLen : ∀ l : List Nat, l.take (runLen l) = List.replicate (runLen l) 0 := by
  intro l
  induction l with
  | nil => simp [runLen]
  | cons g rest ih =>
    cases g with
    | zero =>
      simp only [runLen]
      rw [show 1 + runLen rest = runLen rest + 1 by omega]
      simp [List.replicate_succ, ih]
    | succ k => simp [runLen]

theorem bestRunAux_spec :
    ∀ (gs : List Nat) (i s l : Nat), bestRunAux i gs = some (s, l) →
      i ≤ s ∧ 2 ≤ l ∧ s - i + l ≤ gs.length ∧ (gs.drop (s - i)).take l = List.replicate l 0 := by
  intro gs
  induction gs with
  | nil => intro i s l h; simp [bestRunAux] at h
  | cons g rest ih =>
    intro i s l h
    simp only [bestRunAux] at h
    have hcurle := runLen_le_length (g :: rest)
    have hcurtake := take_runLen (g :: rest)
    by_cases hcur : 2 ≤ runLen (g :: rest)
    · rw [if_pos hcur] at h
      cases htl : bestRunAux (i + 1) rest with
      | none =>
        rw [htl] at h
        simp only [Option.some.injEq, Prod.mk.injEq] at h
        obtain ⟨hs, hl⟩ := h
        subst hs; subst hl
        refine ⟨le_refl i, hcur, ?_, ?_⟩
        · simp only [Nat.sub_self, List.length_cons] at hcurle ⊢; omega
        · simpa using hcurtake
      | some jl =>
        obtain ⟨j, l'⟩ := jl
        rw [htl] at h
        obtain ⟨hij, hl2, hlen2, htake2⟩ := ih (i + 1) j l' htl
        by_cases hlt : runLen (g :: rest) < l'
        · simp only [if_pos hlt, Option.some.injEq, Prod.mk.injEq] at h
          obtain ⟨hs, hl⟩ := h
          subst hs; subst hl
          refine ⟨by omega, hl2, ?_, ?_⟩
          · simp only [List.length_cons] at hlen2 ⊢; omega
          · rw [show j - i = (j - (i + 1)) + 1 by omega, List.drop_succ_cons]
            exact htake2
        · simp only [if_neg hlt, Option.some.injEq, Prod.mk.injEq] at h
          obtain ⟨hs, hl⟩ := h
          subst hs; subst hl
          refine ⟨le_refl i, hcur, ?_, ?_⟩
          · simp only [Nat.sub_self, List.length_cons] at hcurle ⊢; omega
          · simpa using hcurtake
    · rw [if_neg hcur] at h
      obtain ⟨hij, hl2, hlen2, htake2⟩ := ih (i + 1) s l h
      refine ⟨by omega, hl2, ?_, ?_⟩
      · simp only [List.length_cons] at hlen2 ⊢; omega
      · rw [show s - i = (s - (i + 1)) + 1 by omega, List.drop_succ_cons]
        exact htake2

theorem bestRun_spec (gs : List Nat) (s l : Nat) (h : bestRun gs = some (s, l)) :
    2 ≤ l ∧ s + l ≤ gs.length ∧ (gs.drop s).take l = List.replicate l 0 := by
  have hs := bestRunAux_spec gs 0 s l h
  simpa using hs

theorem take_replicate_drop (gs : List Nat) (s l : Nat)
    (h : (gs.drop s).take l = List.replicate l 0) :
    gs.take s ++ List.replicate l 0 ++ gs.drop (s + l) = gs := by
  rw [← h, List.append_assoc]
  have h2 : gs.drop (s + l) = (gs.drop s).drop l := by
    rw [List.drop_drop, Nat.add_comm]
  rw [h2, List.take_append_drop, List.take_append_drop]

/-- Modelled from the spec (§4.1): the colon-separated lowercase-hex rendering
of a group sequence. -/
def fmtGroups (gs : List Nat) : List Char := joinSep ':' (gs.map (natRepr 16))

/-- Modelled from the spec (§4.1 Text conversion): the compressed-hex IPv6
form — the leftmost longest run of two or more all-zero groups is replaced by
`::`, at most once; without such a run, the eight groups are printed
in full. -/
def fmtV6 (gs : List Nat) : List Char :=
  match bestRun gs with
  | none => fmtGroups gs
  | some (s, l) => fmtGroups (gs.take s) ++ ':' :: ':' :: fmtGroups (gs.drop (s + l))

/-- Modelled from the spec: `IPAddr::AsString` is declared in
`src/src/IPAddr.h` (line 231) but defined in `IPAddr.cc`, which is not part of
the repository snapshot.  IPv4 addresses render as four decimal octets
separated by dots; IPv6 addresses render as compressed colon-hex.  Strings
are modelled as lists of characters. -/
def IPAddr.AsString (a : IPAddr) : List Char :=
  if a.family = IPAddr.Family.IPv4 then
    joinSep '.' [natRepr 10 (a.byte 12), natRepr 10 (a.byte 13),
      natRepr 10 (a.byte 14), natRepr 10 (a.byte 15)]
  else fmtV6 (groupsOfBytes a.s6_addr)

/-- Modelled from the spec (§4.3): each dot-separated token as a decimal
octet, rejecting non-digit characters and out-of-range (> 255) values. -/
def parseOctets : List (List Char) → Option (List Nat)
  | [] => some []
  | t :: ts =>
    match parseNum decVal 10 t, parseOctets ts with
    | some v, some vs => if v ≤ 255 then some (v :: vs) else none
    | _, _ => none

/-- Modelled from the spec (§4.3): dotted-decimal IPv4 — exactly four in-range
octets — stored in mapped form. -/
def parseIPv4 (cs : List Char) : Option IPAddr :=
  match parseOctets (splitOnChar '.' cs) with
  | some [o1, o2, o3, o4] => some ⟨ v4_mapped_prefix ++ [o1, o2, o3, o4]⟩
  | _ => none

/-- Modelled from the spec (§4.3): a nonempty hex token as a 16-bit group,
rejecting out-of-range (> 0xffff) values. -/
def parseHexGroup (t : List Char) : Option Nat :=
  match parseNum hexVal 16 t with
  | some g => if g ≤ 65535 then some g else none
  | none => none

/-- Modelled from the spec (§4.3): a trailing embedded dotted-decimal IPv4
quad, contributing the final two 16-bit groups. -/
def parseQuad (t : List Char) : Option (List Nat) :=
  match parseOctets (splitOnChar '.' t) with
  | some [o1, o2, o3, o4] => some [o1 * 256 + o2, o3 * 256 + o4]
  | _ => none

/-- Modelled from the spec (§4.3): a colon-separated token list as a group
sequence; only the final token may be an embedded IPv4 quad, and only where
`allowQuad` holds (the end of the whole address). -/
def parseGroups (allowQuad : Bool) : List (List Char) → Option (List Nat)
  | [] => some []
  | [t] =>
    if allowQuad = true ∧ '.' ∈ t then parseQuad t
    else (parseHexGroup t).map (fun g => [g])
  | t :: ts =>
    match parseHexGroup t, parseGroups allowQuad ts with
    | some g, some gs => some (g :: gs)
    | _, _ => none

/-- Splits the input at the first occurrence of `::`, when there is one. -/
def splitMarker : List Char → Option (List Char × List Char)
  | a :: b :: rest =>
    if a = ':' ∧ b = ':' then some ([], rest)
    else
      match splitMarker (b :: rest) with
      | some (l, r) => some (a :: l, r)
      | none => none
  | _ => none

/-- Modelled from the spec (§4.3): one side of the `::` marker; an empty side
holds no groups. -/
def parseSide (allowQuad : Bool) (cs : List Char) : Option (List Nat) :=
  if cs.isEmpty then some [] else parseGroups allowQuad (splitOnChar ':' cs)

/-- Modelled from the spec (§4.3): colon-hex IPv6 text.  Without a `::`
marker, exactly eight groups are required.  With one, the sides must parse
(empty tokens reject a second `::` or a dangling colon) and leave room for at
least one elided zero group, which the marker fills in. -/
def parseIPv6 (cs : List Char) : Option IPAddr :=
  match splitMarker cs with
  | none =>
    match parseSide true cs with
    | some gs => if gs.length = 8 then some ⟨bytesOfGroups gs⟩ else none
    | none => none
  | some (l, r) =>
    match parseSide false l, parseSide true r with
    | some gl, some gr =>
      if gl.length + gr.length ≤ 7 then
        some ⟨bytesOfGroups (gl ++ List.replicate (8 - (gl.length + gr.length)) 0 ++ gr)⟩
      else none
    | _, _ => none

/-- Modelled from the spec: `IPAddr::Init` is declared in `src/src/IPAddr.h`
(line 271) but defined in `IPAddr.cc`, which is not part of the repository
snapshot.  Text with no colon is parsed as dotted-decimal IPv4, text with a
colon as (possibly compressed) colon-hex IPv6; `none` stands for the
`ParseError` outcome. -/
def IPAddr.Init (cs : List Char) : Option IPAddr :=
  if ':' ∈ cs then parseIPv6 cs else parseIPv4 cs

theorem parseOctets_cons (t : List Char) (ts : List (List Char)) (v : Nat) (vs : List Nat)
    (h1 : parseNum decVal 10 t = some v) (h2 : parseOctets ts = some vs) (h3 : v ≤ 255) :
    parseOctets (t :: ts) = some (v :: vs) := by
  simp [parseOctets, h1, h2, h3]

theorem parseNum_dec_natRepr (n : Nat) : parseNum decVal 10 (natRepr 10 n) = some n :=
  parseNum_natRepr decVal 10 n (by norm_num) (fun d hd => decVal_toDigitChar d hd)

theorem parseIPv4_AsString (b12 b13 b14 b15 : Nat)
    (h12 : b12 < 256) (h13 : b13 < 256) (h14 : b14 < 256) (h15 : b15 < 256) :
    parseIPv4 (joinSep '.' [natRepr 10 b12, natRepr 10 b13, natRepr 10 b14, natRepr 10 b15])
      = some ⟨ v4_mapped_prefix ++ [b12, b13, b14, b15]⟩ := by
  have hparts :
      ∀ p ∈ [natRepr 10 b12, natRepr 10 b13, natRepr 10 b14, natRepr 10 b15], '.' ∉ p := by
    intro p hp
    simp only [List.mem_cons, List.not_mem_nil, or_false] at hp
    rcases hp with h | h | h | h <;>
      · rw [h]; exact dot_not_mem_natRepr 10 _ (by norm_num) (by norm_num)
  have h4 : parseOctets [natRepr 10 b15] = some [b15] :=
    parseOctets_cons _ _ _ _ (parseNum_dec_natRepr b15) rfl (by omega)
  have h3 : parseOctets [natRepr 10 b14, natRepr 10 b15] = some [b14, b15] :=
    parseOctets_cons _ _ _ _ (parseNum_dec_natRepr b14) h4 (by omega)
  have h2 : parseOctets [natRepr 10 b13, natRepr 10 b14, natRepr 10 b15]
      = some [b13, b14, b15] :=
    parseOctets_cons _ _ _ _ (parseNum_dec_natRepr b13) h3 (by omega)
  have h1 : parseOctets [natRepr 10 b12, natRepr 10 b13, natRepr 10 b14, natRepr 10 b15]
      = some [b12, b13, b14, b15] :=
    parseOctets_cons _ _ _ _ (parseNum_dec_natRepr b12) h2 (by omega)
  unfold parseIPv4
  rw [splitOnChar_joinSep '.' _ hparts (by simp), h1]

theorem parseHexGroup_natRepr (g : Nat) (hg : g ≤ 65535) :
    parseHexGroup (natRepr 16 g) = some g := by
  unfold parseHexGroup
  rw [parseNum_natRepr hexVal 16 g (by norm_num) (fun d hd => hexVal_toDigitChar d hd)]
  simp [hg]

theorem parseGroups_natRepr (aq : Bool) :
    ∀ gs : List Nat, (∀ g ∈ gs, g < 65536) →
      parseGroups aq (gs.map (natRepr 16)) = some gs
  | [], _ => rfl
  | [g], h => by
    have hdot : '.' ∉ natRepr 16 g := dot_not_mem_natRepr 16 g (by norm_num) (by norm_num)
    simp only [List.map_cons, List.map_nil, parseGroups]
    rw [if_neg (by simp [hdot])]
    rw [parseHexGroup_natRepr g (by have := h g (List.mem_cons_self g []); omega)]
    rfl
  | g :: g2 :: rest, h => by
    have ih := parseGroups_natRepr aq (g2 :: rest) (fun x hx => h x (List.mem_cons_of_mem g hx))
    simp only [List.map_cons] at ih ⊢
    simp only [parseGroups,
      parseHexGroup_natRepr g (by have := h g (List.mem_cons_self g _); omega), ih]

theorem fmtGroups_token (gs : List Nat) :
    ∀ t ∈ gs.map (natRepr 16), t ≠ [] ∧ ':' ∉ t := by
  intro t ht
  obtain ⟨g, _, rfl⟩ := List.mem_map.mp ht
  exact ⟨natRepr_ne_nil 16 g, colon_not_mem_natRepr 16 g (by norm_num) (by norm_num)⟩

theorem joinSep_cons_ne_nil (c : Char) (t : List Char) (ts : List (List Char)) (ht : t ≠ []) :
    joinSep c (t :: ts) ≠ [] := by
  cases ts with
  | nil => exact ht
  | cons t2 rest => simp [joinSep]

theorem parseSide_fmtGroups (aq : Bool) (gs : List Nat) (hg : ∀ g ∈ gs, g < 65536) :
    parseSide aq (fmtGroups gs) = some gs := by
  cases gs with
  | nil => rfl
  | cons g rest =>
    unfold parseSide fmtGroups
    have hne : joinSep ':' (natRepr 16 g :: rest.map (natRepr 16)) ≠ [] :=
      joinSep_cons_ne_nil ':' _ _ (natRepr_ne_nil 16 g)
    rw [if_neg (by simp only [List.map_cons, List.isEmpty_iff]; exact hne)]
    rw [splitOnChar_joinSep ':' _ (fun t ht => (fmtGroups_token (g :: rest) t ht).2) (by simp)]
    exact parseGroups_natRepr aq (g :: rest) hg

theorem splitMarker_no_colon : ∀ t : List Char, ':' ∉ t → splitMarker t = none
  | [], _ => rfl
  | [_], _ => rfl
  | a :: b :: rest, h => by
    have ha : ¬ (a = ':') := fun he => h (by rw [he]; exact List.mem_cons_self _ _)
    have htail : ':' ∉ b :: rest := fun hm => h (List.mem_cons_of_mem a hm)
    have hcond : ¬ (a = ':' ∧ b = ':') := by simp [ha]
    simp only [splitMarker, if_neg hcond,
      splitMarker_no_colon (b :: rest) htail]

theorem splitMarker_tok :
    ∀ t : List Char, ':' ∉ t → ∀ B, splitMarker (t ++ ':' :: ':' :: B) = some (t, B)
  | [], _, B => by simp [splitMarker]
  | c :: t', h, B => by
    have hc : ¬ (c = ':') := fun he => h (by rw [he]; exact List.mem_cons_self _ _)
    have ht' : ':' ∉ t' := fun hm => h (List.mem_cons_of_mem c hm)
    have ih := splitMarker_tok t' ht' B
    cases t' with
    | nil => simp [splitMarker, hc]
    | cons x t'' =>
      have ih2 : splitMarker (x :: (t'' ++ ':' :: ':' :: B)) = some (x :: t'', B) := by
        simpa using ih
      have hcond : ¬ (c = ':' ∧ x = ':') := by simp [hc]
      simp only [List.cons_append, splitMarker, if_neg hcond, List.append_eq, ih2]

theorem splitMarker_sep :
    ∀ t : List Char, ':' ∉ t → ∀ r : List Char, (∀ x xs, r = x :: xs → x ≠ ':') →
      splitMarker (t ++ ':' :: r)
        = (splitMarker r).map (fun pr => (t ++ ':' :: pr.1, pr.2))
  | [], _, r, hr => by
    cases r with
    | nil => rfl
    | cons x xs =>
      have hx : x ≠ ':' := hr x xs rfl
      have hcond : ¬ (':' = ':' ∧ x = ':') := by simp [hx]
      simp only [List.nil_append, splitMarker, if_neg hcond]
      cases hsm : splitMarker (x :: xs) with
      | none => simp [hsm, hx]
      | some pr => simp [hsm, hx]
  | c :: t', h, r, hr => by
    have hc : ¬ (c = ':') := fun he => h (by rw [he]; exact List.mem_cons_self _ _)
    have ht' : ':' ∉ t' := fun hm => h (List.mem_cons_of_mem c hm)
    have ih := splitMarker_sep t' ht' r hr
    cases t' with
    | nil =>
      have hcond : ¬ (c = ':' ∧ ':' = ':') := by simp [hc]
      simp only [List.nil_append] at ih
      simp only [List.cons_append, List.nil_append, splitMarker, if_neg hcond, ih]
      cases splitMarker r with
      | none => simp [hc]
      | some pr => simp [hc]
    | cons x t'' =>
      have ih2 : splitMarker (x :: (t'' ++ ':' :: r))
          = (splitMarker r).map (fun pr => ((x :: t'') ++ ':' :: pr.1, pr.2)) := by
        simpa using ih
      have hcond : ¬ (c = ':' ∧ x = ':') := by simp [hc]
      simp only [List.cons_append, splitMarker, if_neg hcond, List.append_eq, ih2]
      cases splitMarker r with
      | none => simp [hc]
      | some pr => simp [hc]

theorem joinSep_cons_head (t2 : List Char) (rest : List (List Char)) (y : Char)
    (ys : List Char) (ht2 : t2 = y :: ys) :
    ∃ zs, joinSep ':' (t2 :: rest) = y :: zs := by
  subst ht2
  cases rest with
  | nil => exact ⟨ys, rfl⟩
  | cons t3 more => exact ⟨ys ++ ':' :: joinSep ':' (t3 :: more), rfl⟩

theorem joinSep_suffix_head_ne_colon (t2 : List Char) (rest : List (List Char))
    (h2 : t2 ≠ [] ∧ ':' ∉ t2) (suffix : List Char) :
    ∀ x xs, joinSep ':' (t2 :: rest) ++ suffix = x :: xs → x ≠ ':' := by
  intro x xs hx he
  obtain ⟨h2ne, h2c⟩ := h2
  cases ht2 : t2 with
  | nil => exact h2ne ht2
  | cons y ys =>
    obtain ⟨zs, hzs⟩ := joinSep_cons_head t2 rest y ys ht2
    rw [hzs] at hx
    simp only [List.cons_append, List.cons.injEq] at hx
    apply h2c
    rw [ht2]
    have hy : y = ':' := hx.1.trans he
    rw [hy]
    exact List.mem_cons_self _ _

theorem splitMarker_join_none :
    ∀ tokens : List (List Char), (∀ t ∈ tokens, t ≠ [] ∧ ':' ∉ t) →
      splitMarker (joinSep ':' tokens) = none
  | [], _ => rfl
  | [t], h => splitMarker_no_colon t (h t (List.mem_cons_self _ _)).2
  | t :: t2 :: rest, h => by
    have ht := h t (List.mem_cons_self _ _)
    have hrest : ∀ q ∈ t2 :: rest, q ≠ [] ∧ ':' ∉ q :=
      fun q hq => h q (List.mem_cons_of_mem t hq)
    have hr : ∀ x xs, joinSep ':' (t2 :: rest) = x :: xs → x ≠ ':' := by
      have hgen := joinSep_suffix_head_ne_colon t2 rest (hrest t2 (List.mem_cons_self _ _)) []
      simpa using hgen
    have hj : joinSep ':' (t :: t2 :: rest) = t ++ ':' :: joinSep ':' (t2 :: rest) := rfl
    rw [hj, splitMarker_sep t ht.2 _ hr, splitMarker_join_none (t2 :: rest) hrest]
    rfl

theorem splitMarker_join_then :
    ∀ tokens : List (List Char), (∀ t ∈ tokens, t ≠ [] ∧ ':' ∉ t) → ∀ B,
      splitMarker (joinSep ':' tokens ++ ':' :: ':' :: B)
        = some (joinSep ':' tokens, B)
  | [], _, B => by simp [joinSep, splitMarker]
  | [t], h, B => splitMarker_tok t (h t (List.mem_cons_self _ _)).2 B
  | t :: t2 :: rest, h, B => by
    have ht := h t (List.mem_cons_self _ _)
    have hrest : ∀ q ∈ t2 :: rest, q ≠ [] ∧ ':' ∉ q :=
      fun q hq => h q (List.mem_cons_of_mem t hq)
    have ih := splitMarker_join_then (t2 :: rest) hrest B
    have hr : ∀ x xs, joinSep ':' (t2 :: rest) ++ ':' :: ':' :: B = x :: xs → x ≠ ':' :=
      joinSep_suffix_head_ne_colon t2 rest (hrest t2 (List.mem_cons_self _ _)) _
    have hj : joinSep ':' (t :: t2 :: rest) = t ++ ':' :: joinSep ':' (t2 :: rest) := rfl
    rw [hj, List.append_assoc, List.cons_append, splitMarker_sep t ht.2 _ hr, ih]
    rfl

theorem parseIPv6_fmtV6 (gs : List Nat) (hlen : gs.length = 8) (hg : ∀ g ∈ gs, g < 65536) :
    parseIPv6 (fmtV6 gs) = some ⟨bytesOfGroups gs⟩ := by
  unfold fmtV6
  cases hbr : bestRun gs with
  | none =>
    unfold parseIPv6
    rw [show fmtGroups gs = joinSep ':' (gs.map (natRepr 16)) from rfl]
    rw [splitMarker_join_none (gs.map (natRepr 16)) (fmtGroups_token gs)]
    rw [show joinSep ':' (gs.map (natRepr 16)) = fmtGroups gs from rfl]
    rw [parseSide_fmtGroups true gs hg]
    simp [hlen]
  | some sl =>
    obtain ⟨s, l⟩ := sl
    obtain ⟨hl2, hsl, htake⟩ := bestRun_spec gs s l hbr
    rw [hlen] at hsl
    dsimp only
    unfold parseIPv6
    rw [show fmtGroups (gs.take s) = joinSep ':' ((gs.take s).map (natRepr 16)) from rfl]
    rw [show fmtGroups (gs.drop (s + l)) = joinSep ':' ((gs.drop (s + l)).map (natRepr 16))
      from rfl]
    rw [splitMarker_join_then ((gs.take s).map (natRepr 16)) (fmtGroups_token _) _]
    rw [show joinSep ':' ((gs.take s).map (natRepr 16)) = fmtGroups (gs.take s) from rfl]
    rw [show joinSep ':' ((gs.drop (s + l)).map (natRepr 16)) = fmtGroups (gs.drop (s + l))
      from rfl]
    dsimp only
    rw [parseSide_fmtGroups false (gs.take s) (fun g hgm => hg g (List.take_subset s gs hgm))]
    rw [parseSide_fmtGroups true (gs.drop (s + l))
      (fun g hgm => hg g (List.drop_subset (s + l) gs hgm))]
    have hlt : (gs.take s).length = s := by rw [List.length_take]; omega
    have hld : (gs.drop (s + l)).length = 8 - (s + l) := by rw [List.length_drop, hlen]
    dsimp only
    rw [hlt, hld]
    rw [if_pos (by omega)]
    rw [show 8 - (s + (8 - (s + l))) = l by omega]
    rw [take_replicate_drop gs s l htake]

theorem colon_mem_fmtV6 (gs : List Nat) (hlen : gs.length = 8) : ':' ∈ fmtV6 gs := by
  unfold fmtV6
  cases bestRun gs with
  | none =>
    cases gs with
    | nil => simp at hlen
    | cons g1 tail =>
      cases tail with
      | nil => simp at hlen
      | cons g2 rest =>
        unfold fmtGroups
        simp only [List.map_cons]
        exact sep_mem_joinSep ':' _ _ _
  | some sl =>
    obtain ⟨s, l⟩ := sl
    simp

/-- C5: for every well-formed address, parsing the text produced by
`AsString` recovers the address exactly — IPv4 values through the
dotted-decimal form, IPv6 values through the compressed colon-hex form. -/
theorem init_asString_roundtrip (a : IPAddr) (h : a.WF) :
    IPAddr.Init a.AsString = some a := by
  obtain ⟨l⟩ := a
  obtain ⟨b0, b1, b2, b3, b4, b5, b6, b7, b8, b9, b10, b11, b12, b13, b14, b15, hl⟩ :=
    exists_sixteen l h.1
  subst hl
  by_cases hf : IPAddr.family ⟨[b0, b1, b2, b3, b4, b5, b6, b7, b8, b9, b10, b11,
      b12, b13, b14, b15]⟩ = IPAddr.Family.IPv4
  · have htake := (IPAddr.family_v4_iff _).mp hf
    have hred : List.take 12 [b0, b1, b2, b3, b4, b5, b6, b7, b8, b9, b10, b11,
        b12, b13, b14, b15] = [b0, b1, b2, b3, b4, b5, b6, b7, b8, b9, b10, b11] := rfl
    rw [hred] at htake
    simp only [ v4_mapped_prefix, List.cons.injEq, and_true] at htake
    obtain ⟨rfl, rfl, rfl, rfl, rfl, rfl, rfl, rfl, rfl, rfl, rfl, rfl⟩ := htake
    unfold IPAddr.AsString
    rw [if_pos hf]
    have e12 : IPAddr.byte ⟨[0, 0, 0, 0, 0, 0, 0, 0, 0, 0, 255, 255,
        b12, b13, b14, b15]⟩ 12 = b12 := rfl
    have e13 : IPAddr.byte ⟨[0, 0, 0, 0, 0, 0, 0, 0, 0, 0, 255, 255,
        b12, b13, b14, b15]⟩ 13 = b13 := rfl
    have e14 : IPAddr.byte ⟨[0, 0, 0, 0, 0, 0, 0, 0, 0, 0, 255, 255,
        b12, b13, b14, b15]⟩ 14 = b14 := rfl
    have e15 : IPAddr.byte ⟨[0, 0, 0, 0, 0, 0, 0, 0, 0, 0, 255, 255,
        b12, b13, b14, b15]⟩ 15 = b15 := rfl
    rw [e12, e13, e14, e15]
    have hnc : ':' ∉ joinSep '.' [natRepr 10 b12, natRepr 10 b13, natRepr 10 b14,
        natRepr 10 b15] := by
      intro hc
      rcases mem_joinSep '.' _ ':' hc with he | ⟨p, hp, hcp⟩
      · exact absurd he (by decide)
      · simp only [List.mem_cons, List.not_mem_nil, or_false] at hp
        rcases hp with hp | hp | hp | hp <;>
          · rw [hp] at hcp
            exact colon_not_mem_natRepr 10 _ (by norm_num) (by norm_num) hcp
    unfold IPAddr.Init
    rw [if_neg hnc]
    have hwf := h.2
    rw [parseIPv4_AsString b12 b13 b14 b15
      (hwf b12 (by simp)) (hwf b13 (by simp)) (hwf b14 (by simp)) (hwf b15 (by simp))]
    rfl
  · unfold IPAddr.AsString
    rw [if_neg hf]
    have h8 : (groupsOfBytes [b0, b1, b2, b3, b4, b5, b6, b7, b8, b9, b10, b11,
        b12, b13, b14, b15]).length = 8 := rfl
    unfold IPAddr.Init
    rw [if_pos (colon_mem_fmtV6 _ h8)]
    rw [parseIPv6_fmtV6 _ h8 (groupsOfBytes_lt _ h.2)]
    rw [bytesOfGroups_groupsOfBytes _ h.2 (by simp)]

/-- Witness for C5: the theorem applied at `::1`, whose well-formedness is
discharged by `decide`. -/
theorem init_asString_roundtrip_witness :
    IPAddr.Init IPAddr.loopback6.AsString = some IPAddr.loopback6 :=
  init_asString_roundtrip IPAddr.loopback6 (by decide)
